import Mathlib

/-!
Verification of the `ipnetwork` crate's network-range arithmetic.

Shallow embedding conventions:
* Machine integers (`u8`, `u16`, `u32`, `u64`, `u128`) are modelled as `Nat`
  with explicit `% 2^w` at the points where the Rust code can truncate or wrap.
  Where the Rust operation cannot overflow on the reachable inputs, the plain
  `Nat` operation is used and the no-overflow fact is carried as a hypothesis
  or proved.
* `Ipv4Addr` / `Ipv6Addr` are carried as their numeric values (`u32` / `u128`).
* Rust `Result` / fallible paths become `Except`; iterator `next` methods
  become pure step functions `state -> Option item × state`.
* The `prefix` field of the Rust structs is called `pfx` here.
-/

namespace Ipnetwork

/-- Errors from `src/error.rs` / `src/common.rs` (string payloads omitted):
`InvalidAddr`, `InvalidPrefix`, `InvalidCidrFormat`. -/
inductive IpNetworkError where
  | invalidAddr
  | invalidPfx
  | invalidCidrFormat
deriving DecidableEq, Repr

/-- `NetworkSizeError` from `src/error.rs` (only variant: `NetworkIsTooLarge`). -/
inductive NetworkSizeError where
  | networkIsTooLarge
deriving DecidableEq, Repr

/-- Bit length of a natural number, computed with structural fuel recursion
(enough fuel for 128-bit values). Models the bit-length underlying Rust's
`leading_zeros`. -/
def bitLenAux : Nat → Nat → Nat
  | 0, _ => 0
  | fuel + 1, x => if x = 0 then 0 else bitLenAux fuel (x / 2) + 1

/-- Bit length (position of the highest set bit plus one; 0 for 0). -/
def natBitLen (x : Nat) : Nat := bitLenAux 129 x

/-- Rust `u32::leading_zeros` for `x < 2^32`. -/
def u32LeadingZeros (x : Nat) : Nat := 32 - natBitLen x

/-- Rust `u16::leading_zeros` for `x < 2^16`. -/
def u16LeadingZeros (x : Nat) : Nat := 16 - natBitLen x

/-- Wrapping `u8` subtraction `a - b` for `a b < 256` (release-mode Rust
semantics; a debug build aborts on the same inputs when `b > a`). -/
def u8sub (a b : Nat) : Nat := (a + 256 - b) % 256

/-! ## IPv4 (`src/ipv4.rs`) -/

/-- `Ipv4Network`: an IPv4 address (as its `u32` value) plus a prefix length
(`prefix` in the source). -/
structure Ipv4Network where
  addr : Nat
  pfx : Nat
deriving DecidableEq, Repr

/-- `Ipv4Network::new`: rejects a prefix larger than 32 with `InvalidPrefix`. -/
def Ipv4Network.new (addr pfx : Nat) : Except IpNetworkError Ipv4Network :=
  if pfx > 32 then .error .invalidPfx else .ok ⟨addr, pfx⟩

/-- `Ipv4Network::mask`: `!(0xffffffff as u64 >> prefix) as u32`
(`!` on `u64` is xor with `2^64 - 1`; the `as u32` cast is `% 2^32`). -/
def Ipv4Network.mask (n : Ipv4Network) : Nat :=
  ((2 ^ 64 - 1) ^^^ (0xffffffff >>> n.pfx)) % 2 ^ 32

/-- `Ipv4Network::network`: `addr & mask`. -/
def Ipv4Network.network (n : Ipv4Network) : Nat := n.addr &&& n.mask

/-- `Ipv4Network::broadcast`: `addr | !mask` (`!` on `u32`). -/
def Ipv4Network.broadcast (n : Ipv4Network) : Nat :=
  n.addr ||| ((2 ^ 32 - 1) ^^^ n.mask)

/-- `Ipv4Network::contains`: `(ip & mask) == network`. -/
def Ipv4Network.contains (n : Ipv4Network) (ip : Nat) : Bool :=
  (ip &&& n.mask) == n.network

/-- `Ipv4Network::size`: `2u64.pow(32 - prefix)`. -/
def Ipv4Network.size (n : Ipv4Network) : Nat := 2 ^ (32 - n.pfx)

/-- `Ipv4Network::nth`: `network() + n` is a `u32` addition, modelled with an
explicit truncation `% 2^32` (claim C10 is that the truncation never fires). -/
def Ipv4Network.nth (n : Ipv4Network) (i : Nat) : Option Nat :=
  if i < n.size then some ((n.network + i) % 2 ^ 32) else none

/-- `Ipv4NetworkIterator`: `{ next: u64, end: u64 }` (field `end` renamed to
`stop`, `next` to `cur`, since both are reserved here). -/
structure Ipv4NetworkIterator where
  cur : Nat
  stop : Nat
deriving DecidableEq, Repr

/-- `Ipv4Network::iter`: `start = network() as u64`, `end = start + size()`. -/
def Ipv4Network.iter (n : Ipv4Network) : Ipv4NetworkIterator :=
  ⟨n.network, n.network + n.size⟩

/-- `<Ipv4NetworkIterator as Iterator>::next`: yields `next as u32` and
increments while `next < end`. -/
def Ipv4NetworkIterator.step (s : Ipv4NetworkIterator) :
    Option Nat × Ipv4NetworkIterator :=
  if s.cur < s.stop then (some (s.cur % 2 ^ 32), ⟨s.cur + 1, s.stop⟩)
  else (none, s)

/-- The value produced by the `(k+1)`-th call to `next` on state `s`. -/
def Ipv4NetworkIterator.out (s : Ipv4NetworkIterator) : Nat → Option Nat
  | 0 => s.step.1
  | k + 1 => s.step.2.out k

/-- `ipv4_mask_to_prefix`: `prefix = (!mask).leading_zeros()`, then fail
with `InvalidPrefix` if `((mask as u64) << prefix) & 0xffffffff != 0`. -/
def ipv4_mask_to_pfx (mask : Nat) : Except IpNetworkError Nat :=
  let p := u32LeadingZeros ((2 ^ 32 - 1) ^^^ mask)
  if (mask <<< p) &&& 0xffffffff ≠ 0 then .error .invalidPfx else .ok p

/-! ## IPv6 (`src/ipv6.rs`) -/

/-- `Ipv6Network`: an IPv6 address (as its `u128` value) plus a prefix length. -/
structure Ipv6Network where
  addr : Nat
  pfx : Nat
deriving DecidableEq, Repr

/-- `Ipv6Network::new` / `new_checked`: rejects a prefix larger than 128. -/
def Ipv6Network.new (addr pfx : Nat) : Except IpNetworkError Ipv6Network :=
  if pfx > 128 then .error .invalidPfx else .ok ⟨addr, pfx⟩

/-- `Ipv6Network::mask`: `0` when `prefix == 0`, else
`u128::MAX << (128 - prefix)` (the shift keeps the low 128 bits). -/
def Ipv6Network.mask (n : Ipv6Network) : Nat :=
  if n.pfx = 0 then 0 else ((2 ^ 128 - 1) <<< (128 - n.pfx)) % 2 ^ 128

/-- `Ipv6Network::network`: `addr & mask`. -/
def Ipv6Network.network (n : Ipv6Network) : Nat := n.addr &&& n.mask

/-- `Ipv6Network::broadcast`: `addr | !mask` (`!` on `u128`). -/
def Ipv6Network.broadcast (n : Ipv6Network) : Nat :=
  n.addr ||| ((2 ^ 128 - 1) ^^^ n.mask)

/-- `Ipv6Network::contains`: `(ip & mask) == network`. -/
def Ipv6Network.contains (n : Ipv6Network) (ip : Nat) : Bool :=
  (ip &&& n.mask) == n.network

/-- `Ipv6Network::size`: `u128::MAX` when `prefix == 0`, else
`1 << (128 - prefix)`. -/
def Ipv6Network.size (n : Ipv6Network) : Nat :=
  if n.pfx = 0 then 2 ^ 128 - 1 else 1 <<< (128 - n.pfx)

/-- `Ipv6Network::nth`: `network() + n` is a `u128` addition, modelled with an
explicit truncation `% 2^128` (claim C10 is that the truncation never fires). -/
def Ipv6Network.nth (n : Ipv6Network) (i : Nat) : Option Nat :=
  if i < n.size then some ((n.network + i) % 2 ^ 128) else none

/-- `Ipv6Network::is_subnet_of`:
`other.ip() <= self.ip() && other.broadcast() >= self.broadcast()`. -/
def Ipv6Network.is_subnet_of (self other : Ipv6Network) : Bool :=
  decide (other.addr ≤ self.addr) && decide (self.broadcast ≤ other.broadcast)

/-- `Ipv6NetworkIterator`: `{ next: Option<u128>, end: u128 }` (field `end`
renamed to `stop`, `next` to `cur`). -/
structure Ipv6NetworkIterator where
  cur : Option Nat
  stop : Nat
deriving DecidableEq, Repr

/-- `Ipv6Network::iter`: `checked_shl` / `checked_shr` return `None`
(→ `unwrap_or(0)`) exactly when the shift amount reaches 128. -/
def Ipv6Network.iter (n : Ipv6Network) : Ipv6NetworkIterator :=
  let mask := if 128 ≤ 128 - n.pfx then 0
              else ((2 ^ 128 - 1) <<< (128 - n.pfx)) % 2 ^ 128
  let start := n.addr &&& mask
  let mask2 := if 128 ≤ n.pfx then 0 else (2 ^ 128 - 1) >>> n.pfx
  ⟨some start, n.addr ||| mask2⟩

/-- `<Ipv6NetworkIterator as Iterator>::next`: yields the stored `next`,
replacing it by `None` when it equals `end`, else by `next + 1` (a `u128`
increment, modelled with explicit truncation). -/
def Ipv6NetworkIterator.step (s : Ipv6NetworkIterator) :
    Option Nat × Ipv6NetworkIterator :=
  match s.cur with
  | none => (none, s)
  | some v =>
      (some v, ⟨if v = s.stop then none else some ((v + 1) % 2 ^ 128), s.stop⟩)

/-- The value produced by the `(k+1)`-th call to `next` on state `s`. -/
def Ipv6NetworkIterator.out (s : Ipv6NetworkIterator) : Nat → Option Nat
  | 0 => s.step.1
  | k + 1 => s.step.2.out k

/-- Big-endian 16-bit segments of a `u128` value (`Ipv6Addr::segments`). -/
def segments (x : Nat) : List Nat :=
  [(x >>> 112) % 2 ^ 16, (x >>> 96) % 2 ^ 16, (x >>> 80) % 2 ^ 16,
   (x >>> 64) % 2 ^ 16, (x >>> 48) % 2 ^ 16, (x >>> 32) % 2 ^ 16,
   (x >>> 16) % 2 ^ 16, x % 2 ^ 16]

/-- All remaining segments must be zero (the second loop of
`ipv6_mask_to_prefix`). -/
def allZero : List Nat → Bool
  | [] => true
  | s :: rest => s == 0 && allZero rest

/-- The segment scan of `ipv6_mask_to_prefix`: a full `0xffff` segment adds 16
and continues; a `0` segment breaks; any other segment contributes
`(!segment).leading_zeros()` leading one-bits, requires the rest of its bits to
be zero (`segment << prefix_bits` is a truncating `u16` shift), and breaks.
After a break, every remaining segment must be zero. The source accumulates
into a mutable `prefix`; here the accumulation is returned additively. -/
def ipv6MaskSegsToPfx : List Nat → Except IpNetworkError Nat
  | [] => .ok 0
  | seg :: rest =>
    if seg = 0xffff then
      match ipv6MaskSegsToPfx rest with
      | .ok p => .ok (16 + p)
      | .error e => .error e
    else if seg = 0 then
      if allZero rest then .ok 0 else .error .invalidPfx
    else
      let prefixBits := u16LeadingZeros ((2 ^ 16 - 1) ^^^ seg)
      if (seg <<< prefixBits) % 2 ^ 16 ≠ 0 then .error .invalidPfx
      else if allZero rest then .ok prefixBits else .error .invalidPfx

/-- `ipv6_mask_to_prefix` on the numeric value of the mask address. -/
def ipv6_mask_to_pfx (mask : Nat) : Except IpNetworkError Nat :=
  ipv6MaskSegsToPfx (segments mask)

/-! ## NetworkSize (`src/size.rs`) -/

/-- `NetworkSize`: a `u32`-tagged or `u128`-tagged magnitude. -/
inductive NetworkSize where
  | V4 (a : Nat)
  | V6 (a : Nat)
deriving DecidableEq, Repr

/-- `impl TryFrom<NetworkSize> for u32`: `V4(a) => Ok(a)`,
`V6(_) => Err(NetworkIsTooLarge)`. -/
def u32TryFromNetworkSize : NetworkSize → Except NetworkSizeError Nat
  | .V4 a => .ok a
  | .V6 _ => .error .networkIsTooLarge

/-! ## Subtraction engine (`src/sub.rs`) -/

/-- `Ipv4NetworkSubSet`: the partition cursor `{ network: u32, bit_position:
u8, max_bit_position: u8 }`. -/
structure Ipv4NetworkSubSet where
  network : Nat
  bitPosition : Nat
  maxBitPosition : Nat
deriving DecidableEq, Repr

/-- `Ipv4NetworkSubResult`. -/
inductive Ipv4NetworkSubResult where
  | empty
  | singleNetwork (n : Ipv4Network)
  | multipleNetworks (s : Ipv4NetworkSubSet)
deriving DecidableEq, Repr

/-- `impl Sub for Ipv4Network` (`self - other`; the source's local variable
names `subtrahend`/`minuend` for `self.network()`/`other.network()` are kept). -/
def Ipv4Network.sub (self other : Ipv4Network) : Ipv4NetworkSubResult :=
  let subtrahend := self.network
  let minuend := other.network
  let mask := self.mask
  if minuend &&& mask = subtrahend then
    .multipleNetworks ⟨minuend, 32 - other.pfx, 32 - self.pfx⟩
  else
    let otherMask := other.mask
    if subtrahend &&& otherMask = minuend then .empty
    else .singleNetwork self

/-- `<Ipv4NetworkSubSet as Iterator>::next`: while `bit_position <
max_bit_position`, yield the sibling block
`((network ^ (1 << bit_position)) & !(bit_mask - 1)) / (32 - bit_position)`
built through `Ipv4Network::new(..).expect(..)` (the `Except` is returned so
that the `expect` can be reasoned about). -/
def Ipv4NetworkSubSet.step (s : Ipv4NetworkSubSet) :
    Option (Except IpNetworkError Ipv4Network) × Ipv4NetworkSubSet :=
  if s.bitPosition < s.maxBitPosition then
    let bitMask := 1 <<< s.bitPosition
    let prefixMask := (2 ^ 32 - 1) ^^^ (bitMask - 1)
    let address := (s.network ^^^ bitMask) &&& prefixMask
    (some (Ipv4Network.new address (32 - s.bitPosition)),
     ⟨s.network, s.bitPosition + 1, s.maxBitPosition⟩)
  else (none, s)

/-- `<Ipv4NetworkSubResult as Iterator>::next` (on exhaustion of the inner
cursor the state collapses to `Empty`, as in the source). -/
def Ipv4NetworkSubResult.step (r : Ipv4NetworkSubResult) :
    Option (Except IpNetworkError Ipv4Network) × Ipv4NetworkSubResult :=
  match r with
  | .empty => (none, .empty)
  | .singleNetwork n => (some (.ok n), .empty)
  | .multipleNetworks s =>
      match s.step with
      | (some item, s') => (some item, .multipleNetworks s')
      | (none, _) => (none, .empty)

/-- The value produced by the `(k+1)`-th call to `next` on the result `r`. -/
def Ipv4NetworkSubResult.out (r : Ipv4NetworkSubResult) :
    Nat → Option (Except IpNetworkError Ipv4Network)
  | 0 => r.step.1
  | k + 1 => r.step.2.out k

/-- `Ipv6NetworkSubSet`. -/
structure Ipv6NetworkSubSet where
  network : Nat
  bitPosition : Nat
  maxBitPosition : Nat
deriving DecidableEq, Repr

/-- `Ipv6NetworkSubResult`. -/
inductive Ipv6NetworkSubResult where
  | empty
  | singleNetwork (n : Ipv6Network)
  | multipleNetworks (s : Ipv6NetworkSubSet)
deriving DecidableEq, Repr

/-- `impl Sub for Ipv6Network` (`self - other`). The source computes
`32 - self.prefix()` and `32 - other.prefix()` on `u8` — `32`, not `128` —
modelled here as wrapping `u8` subtraction (release semantics; a debug build
aborts on a prefix above 32). -/
def Ipv6Network.sub (self other : Ipv6Network) : Ipv6NetworkSubResult :=
  let subtrahend := self.network
  let minuend := other.network
  let mask := self.mask
  if minuend &&& mask = subtrahend then
    .multipleNetworks ⟨minuend, u8sub 32 other.pfx, u8sub 32 self.pfx⟩
  else
    let otherMask := other.mask
    if subtrahend &&& otherMask = minuend then .empty
    else .singleNetwork self

/-- `<Ipv6NetworkSubSet as Iterator>::next`: `1 << bit_position` on `u128`
masks the shift amount to 7 bits in release builds (`% 128` here), and
`128 - bit_position` is a `u8` subtraction (wrapping model as above). -/
def Ipv6NetworkSubSet.step (s : Ipv6NetworkSubSet) :
    Option (Except IpNetworkError Ipv6Network) × Ipv6NetworkSubSet :=
  if s.bitPosition < s.maxBitPosition then
    let bitMask := (1 <<< (s.bitPosition % 128)) % 2 ^ 128
    let prefixMask := (2 ^ 128 - 1) ^^^ (bitMask - 1)
    let address := (s.network ^^^ bitMask) &&& prefixMask
    (some (Ipv6Network.new address (u8sub 128 s.bitPosition)),
     ⟨s.network, (s.bitPosition + 1) % 256, s.maxBitPosition⟩)
  else (none, s)

/-- `<Ipv6NetworkSubResult as Iterator>::next`. -/
def Ipv6NetworkSubResult.step (r : Ipv6NetworkSubResult) :
    Option (Except IpNetworkError Ipv6Network) × Ipv6NetworkSubResult :=
  match r with
  | .empty => (none, .empty)
  | .singleNetwork n => (some (.ok n), .empty)
  | .multipleNetworks s =>
      match s.step with
      | (some item, s') => (some item, .multipleNetworks s')
      | (none, _) => (none, .empty)

/-- The value produced by the `(k+1)`-th call to `next` on the result `r`. -/
def Ipv6NetworkSubResult.out (r : Ipv6NetworkSubResult) :
    Nat → Option (Except IpNetworkError Ipv6Network)
  | 0 => r.step.1
  | k + 1 => r.step.2.out k

/-- The 16 blocks of the worked example `10.0.0.0/8 - 10.10.10.0/24`, in the
order the iterator yields them (increasing bit position). -/
def c3Blocks : List Ipv4Network :=
  [⟨0x0A0A0B00, 24⟩, ⟨0x0A0A0800, 23⟩, ⟨0x0A0A0C00, 22⟩, ⟨0x0A0A0000, 21⟩,
   ⟨0x0A0A1000, 20⟩, ⟨0x0A0A2000, 19⟩, ⟨0x0A0A4000, 18⟩, ⟨0x0A0A8000, 17⟩,
   ⟨0x0A0B0000, 16⟩, ⟨0x0A080000, 15⟩, ⟨0x0A0C0000, 14⟩, ⟨0x0A000000, 13⟩,
   ⟨0x0A100000, 12⟩, ⟨0x0A200000, 11⟩, ⟨0x0A400000, 10⟩, ⟨0x0A800000, 9⟩]

/-- The expected output sequence for the worked example. -/
def c3Expected (k : Nat) : Option (Except IpNetworkError Ipv4Network) :=
  if h : k < c3Blocks.length then some (.ok (c3Blocks.get ⟨k, h⟩)) else none

/-- Recombine a big-endian list of 16-bit segments into the number they
represent (proof-support definition, inverse of `segments`). -/
def combineSegs : List Nat → Nat
  | [] => 0
  | s :: rest => s * 2 ^ (16 * rest.length) + combineSegs rest

end Ipnetwork

deriving instance DecidableEq for Except

namespace Ipnetwork

/-! ## Bit-level toolkit -/

lemma bitLenAux_zero (f : Nat) : bitLenAux f 0 = 0 := by
  cases f <;> simp [bitLenAux]

lemma bitLenAux_spec :
    ∀ f x, x < 2 ^ f → x ≠ 0 →
      2 ^ (bitLenAux f x - 1) ≤ x ∧ x < 2 ^ bitLenAux f x := by
  intro f
  induction f with
  | zero => intro x hx hne; omega
  | succ f ih =>
    intro x hx hne
    have hstep : bitLenAux (f + 1) x = bitLenAux f (x / 2) + 1 := by
      simp [bitLenAux, hne]
    by_cases hhalf : x / 2 = 0
    · have hx1 : x = 1 := by omega
      subst hx1
      simp [hstep, hhalf, bitLenAux_zero]
    · have hdiv : x / 2 < 2 ^ f := by
        have := Nat.pow_succ 2 f
        omega
      obtain ⟨h1, h2⟩ := ih (x / 2) hdiv hhalf
      have hk1 : 1 ≤ bitLenAux f (x / 2) := by
        by_contra hk
        have : bitLenAux f (x / 2) = 0 := by omega
        rw [this] at h2
        omega
      constructor
      · rw [hstep]
        have : 2 ^ (bitLenAux f (x / 2) + 1 - 1) = 2 * 2 ^ (bitLenAux f (x / 2) - 1) := by
          rw [← Nat.pow_succ']
          congr 1
          omega
        rw [this]
        omega
      · rw [hstep, Nat.pow_succ]
        omega

lemma natBitLen_le {x w : Nat} (hw : w ≤ 129) (hx : x < 2 ^ w) : natBitLen x ≤ w := by
  by_cases hne : x = 0
  · subst hne; simp [natBitLen, bitLenAux_zero]
  · have hx129 : x < 2 ^ 129 := lt_of_lt_of_le hx (Nat.pow_le_pow_right (by norm_num) hw)
    obtain ⟨h1, h2⟩ := bitLenAux_spec 129 x hx129 hne
    by_contra hgt
    have : 2 ^ w ≤ 2 ^ (natBitLen x - 1) := Nat.pow_le_pow_right (by norm_num) (by omega)
    have := le_trans this h1
    omega

lemma natBitLen_spec {x : Nat} (hx : x < 2 ^ 129) (hne : x ≠ 0) :
    2 ^ (natBitLen x - 1) ≤ x ∧ x < 2 ^ natBitLen x :=
  bitLenAux_spec 129 x hx hne

/-- Bits of the contiguous mask `2^w - 2^e`: set exactly on the window
`[e, w)`. -/
lemma testBit_window {w e : Nat} (he : e ≤ w) (i : Nat) :
    (2 ^ w - 2 ^ e).testBit i = (decide (e ≤ i) && decide (i < w)) := by
  have hfactor : 2 ^ w - 2 ^ e = (2 ^ (w - e) - 1) <<< e := by
    rw [Nat.shiftLeft_eq, Nat.sub_mul, one_mul, ← Nat.pow_add]
    congr 2
    omega
  rw [hfactor, Nat.testBit_shiftLeft, Nat.testBit_two_pow_sub_one]
  by_cases h1 : e ≤ i <;> by_cases h2 : i < w <;>
    simp [h1, h2, ge_iff_le] <;> omega

/-- Complement of the contiguous mask within a `w`-bit word. -/
lemma compl_window {w e : Nat} (he : e ≤ w) :
    (2 ^ w - 1) ^^^ (2 ^ w - 2 ^ e) = 2 ^ e - 1 := by
  apply Nat.eq_of_testBit_eq
  intro i
  rw [Nat.testBit_xor, Nat.testBit_two_pow_sub_one, Nat.testBit_two_pow_sub_one,
    testBit_window he]
  by_cases h1 : e ≤ i <;> by_cases h2 : i < w <;> simp [h1, h2] <;> omega

lemma testBit_ge_false {x w i : Nat} (hx : x < 2 ^ w) (hi : w ≤ i) :
    x.testBit i = false :=
  Nat.testBit_lt_two_pow (lt_of_lt_of_le hx (Nat.pow_le_pow_right (by norm_num) hi))

/-- `x &&& (2^w - 2^e)` keeps exactly the window `[e, w)` of `x`. -/
lemma testBit_and_window {w e : Nat} (he : e ≤ w) (x i : Nat) :
    (x &&& (2 ^ w - 2 ^ e)).testBit i =
      (decide (e ≤ i) && decide (i < w) && x.testBit i) := by
  rw [Nat.testBit_and, testBit_window he]
  cases x.testBit i <;> simp

/-- Masking with the window mask truncates to a multiple of `2^e`. -/
lemma and_window_eq {w e x : Nat} (he : e ≤ w) (hx : x < 2 ^ w) :
    x &&& (2 ^ w - 2 ^ e) = (x >>> e) <<< e := by
  apply Nat.eq_of_testBit_eq
  intro i
  rw [testBit_and_window he, Nat.testBit_shiftLeft, Nat.testBit_shiftRight]
  by_cases h1 : e ≤ i
  · by_cases h2 : i < w
    · simp only [h1, h2, ge_iff_le]
      rw [show e + (i - e) = i by omega]
      simp
    · simp only [h1, h2, ge_iff_le]
      rw [show e + (i - e) = i by omega, testBit_ge_false hx (by omega)]
      simp
  · simp [h1, ge_iff_le]

/-- Masking with the window mask is dividing and re-multiplying by `2^e`. -/
lemma and_window_eq_mul {w e x : Nat} (he : e ≤ w) (hx : x < 2 ^ w) :
    x &&& (2 ^ w - 2 ^ e) = 2 ^ e * (x / 2 ^ e) := by
  rw [and_window_eq he hx, Nat.shiftLeft_eq, Nat.shiftRight_eq_div_pow, Nat.mul_comm]

/-- Shifting the all-ones `w`-bit word right by `p ≤ w` leaves `2^(w-p) - 1`. -/
lemma all_ones_shiftRight {w p : Nat} (hp : p ≤ w) :
    (2 ^ w - 1) >>> p = 2 ^ (w - p) - 1 := by
  apply Nat.eq_of_testBit_eq
  intro i
  rw [Nat.testBit_shiftRight, Nat.testBit_two_pow_sub_one, Nat.testBit_two_pow_sub_one]
  by_cases h : i < w - p <;> simp [h] <;> omega

/-- The IPv4 mask formula evaluates to the window mask `2^32 - 2^(32-p)`. -/
lemma ipv4_mask_eq {n : Ipv4Network} (h : n.pfx ≤ 32) :
    n.mask = 2 ^ 32 - 2 ^ (32 - n.pfx) := by
  rw [Ipv4Network.mask, show (0xffffffff : Nat) = 2 ^ 32 - 1 by norm_num,
    all_ones_shiftRight h]
  apply Nat.eq_of_testBit_eq
  intro i
  rw [Nat.testBit_mod_two_pow, Nat.testBit_xor, Nat.testBit_two_pow_sub_one,
    Nat.testBit_two_pow_sub_one, testBit_window (by omega : 32 - n.pfx ≤ 32)]
  by_cases h1 : i < 32
  · have h64 : i < 64 := by omega
    by_cases h2 : i < 32 - n.pfx <;> simp [h1, h2, h64] <;> omega
  · simp [h1]

/-- The IPv6 mask formula evaluates to the window mask `2^128 - 2^(128-p)`. -/
lemma ipv6_mask_eq {n : Ipv6Network} (h : n.pfx ≤ 128) :
    n.mask = 2 ^ 128 - 2 ^ (128 - n.pfx) := by
  rw [Ipv6Network.mask]
  by_cases h0 : n.pfx = 0
  · simp [h0]
  · rw [if_neg h0]
    apply Nat.eq_of_testBit_eq
    intro i
    rw [Nat.testBit_mod_two_pow, Nat.testBit_shiftLeft, Nat.testBit_two_pow_sub_one,
      testBit_window (by omega : 128 - n.pfx ≤ 128)]
    by_cases h1 : i < 128
    · by_cases h2 : 128 - n.pfx ≤ i <;> simp [h1, h2, ge_iff_le] <;> omega
    · simp [h1]

/-- Equality after masking by the window mask is bitwise agreement on the
window, provided the right-hand side is already masked. -/
lemma masked_eq_iff {w e x y : Nat} (he : e ≤ w) (hx : x < 2 ^ w)
    (hy : y &&& (2 ^ w - 2 ^ e) = y) :
    (x &&& (2 ^ w - 2 ^ e) = y ↔
      ∀ i, e ≤ i → i < w → x.testBit i = y.testBit i) := by
  constructor
  · intro hxy i hei hiw
    have := congrArg (fun t => t.testBit i) hxy
    simp only at this
    rw [testBit_and_window he] at this
    simp [hei, hiw] at this
    exact this
  · intro hag
    conv_rhs => rw [← hy]
    apply Nat.eq_of_testBit_eq
    intro i
    rw [testBit_and_window he, testBit_and_window he]
    by_cases h1 : e ≤ i
    · by_cases h2 : i < w
      · simp only [h1, h2]
        rw [hag i h1 h2]
      · simp [h2]
    · simp [h1]

lemma and_le_left' (x y : Nat) : x &&& y ≤ x := Nat.and_le_left

lemma and_lt_two_pow' {x w : Nat} (y : Nat) (hx : x < 2 ^ w) : x &&& y < 2 ^ w :=
  lt_of_le_of_lt Nat.and_le_left hx

/-- A network address (masked value) is at most `2^w - 2^e`. -/
lemma masked_le {w e x : Nat} (he : e ≤ w) (hx : x < 2 ^ w) :
    x &&& (2 ^ w - 2 ^ e) ≤ 2 ^ w - 2 ^ e := by
  rw [and_window_eq_mul he hx]
  have hq : x / 2 ^ e ≤ 2 ^ (w - e) - 1 := by
    have : x / 2 ^ e < 2 ^ (w - e) := by
      apply Nat.div_lt_of_lt_mul
      rw [← Nat.pow_add, show e + (w - e) = w by omega]
      exact hx
    omega
  calc 2 ^ e * (x / 2 ^ e) ≤ 2 ^ e * (2 ^ (w - e) - 1) :=
        Nat.mul_le_mul_left _ hq
    _ = 2 ^ w - 2 ^ e := by
        rw [Nat.mul_sub, Nat.mul_one, ← Nat.pow_add]
        congr 2
        omega

/-- Or-ing with the low-ones mask adds it onto the truncated value. -/
lemma or_low_ones (x e : Nat) :
    x ||| (2 ^ e - 1) = 2 ^ e * (x / 2 ^ e) + (2 ^ e - 1) := by
  apply Nat.eq_of_testBit_eq
  intro i
  have hb : (2 : Nat) ^ e - 1 < 2 ^ e := by
    have : (0 : Nat) < 2 ^ e := Nat.pos_pow_of_pos e (by norm_num)
    omega
  rw [Nat.testBit_or, Nat.testBit_two_pow_sub_one,
    Nat.testBit_mul_pow_two_add _ hb, Nat.testBit_two_pow_sub_one]
  by_cases h1 : i < e
  · simp [h1]
  · simp only [h1, if_neg h1]
    rw [← Nat.shiftRight_eq_div_pow, Nat.testBit_shiftRight]
    rw [show e + (i - e) = i by omega]
    simp [h1]

/-- IPv4 broadcast is the network address plus the host-range maximum. -/
lemma ipv4_broadcast_eq {n : Ipv4Network} (ha : n.addr < 2 ^ 32)
    (hp : n.pfx ≤ 32) :
    n.broadcast = n.network + (2 ^ (32 - n.pfx) - 1) := by
  rw [Ipv4Network.broadcast, Ipv4Network.network, ipv4_mask_eq hp,
    compl_window (by omega), or_low_ones, and_window_eq_mul (by omega) ha]

/-- IPv6 broadcast is the network address plus the host-range maximum. -/
lemma ipv6_broadcast_eq {n : Ipv6Network} (ha : n.addr < 2 ^ 128)
    (hp : n.pfx ≤ 128) :
    n.broadcast = n.network + (2 ^ (128 - n.pfx) - 1) := by
  rw [Ipv6Network.broadcast, Ipv6Network.network, ipv6_mask_eq hp,
    compl_window (by omega), or_low_ones, and_window_eq_mul (by omega) ha]

/-- IPv4 containment is bitwise agreement with the network address on the
window `[32 - pfx, 32)`. -/
lemma Ipv4Network.contains_iff {n : Ipv4Network} (ha : n.addr < 2 ^ 32)
    (hp : n.pfx ≤ 32) {a : Nat} (haa : a < 2 ^ 32) :
    (n.contains a = true ↔
      ∀ i, 32 - n.pfx ≤ i → i < 32 → a.testBit i = n.network.testBit i) := by
  have hmask : n.network &&& (2 ^ 32 - 2 ^ (32 - n.pfx)) = n.network := by
    rw [Ipv4Network.network, ipv4_mask_eq hp, Nat.and_assoc, Nat.and_self]
  rw [Ipv4Network.contains, beq_iff_eq, ipv4_mask_eq hp]
  exact masked_eq_iff (by omega) haa hmask

lemma Ipv4Network.network_lt {n : Ipv4Network} (ha : n.addr < 2 ^ 32) :
    n.network < 2 ^ 32 :=
  and_lt_two_pow' _ ha

/-- The network address has its window bits equal to the stored address's and
its low bits clear. -/
lemma Ipv4Network.network_testBit {n : Ipv4Network} (hp : n.pfx ≤ 32) (i : Nat) :
    n.network.testBit i =
      (decide (32 - n.pfx ≤ i) && decide (i < 32) && n.addr.testBit i) := by
  rw [Ipv4Network.network, ipv4_mask_eq hp]
  exact testBit_and_window (by omega) _ _

/-! ## Iterator characterization (claim C6) -/

lemma ipv4_iter_out_spec :
    ∀ (k c stop : Nat), stop ≤ 2 ^ 32 →
      (Ipv4NetworkIterator.mk c stop).out k =
        if c + k < stop then some (c + k) else none := by
  intro k
  induction k with
  | zero =>
    intro c stop hstop
    rw [Ipv4NetworkIterator.out, Ipv4NetworkIterator.step]
    by_cases h : c < stop
    · rw [if_pos h]
      show some (c % 2 ^ 32) = if c + 0 < stop then some (c + 0) else none
      rw [if_pos (by omega), Nat.mod_eq_of_lt (by omega), Nat.add_zero]
    · rw [if_neg h]
      show (none : Option Nat) = if c + 0 < stop then some (c + 0) else none
      rw [if_neg (by omega)]
  | succ k ih =>
    intro c stop hstop
    rw [Ipv4NetworkIterator.out, Ipv4NetworkIterator.step]
    by_cases h : c < stop
    · rw [if_pos h]
      show (Ipv4NetworkIterator.mk (c + 1) stop).out k =
        if c + (k + 1) < stop then some (c + (k + 1)) else none
      rw [ih (c + 1) stop hstop]
      by_cases h2 : c + 1 + k < stop
      · rw [if_pos h2, if_pos (by omega)]
        congr 1
        omega
      · rw [if_neg h2, if_neg (by omega)]
    · rw [if_neg h]
      show (Ipv4NetworkIterator.mk c stop).out k =
        if c + (k + 1) < stop then some (c + (k + 1)) else none
      rw [ih c stop hstop, if_neg (by omega), if_neg (by omega)]

lemma Ipv6NetworkIterator.out_none (k stop : Nat) :
    (Ipv6NetworkIterator.mk none stop).out k = none := by
  induction k with
  | zero => rfl
  | succ k ih => exact ih

lemma ipv6_iter_out_spec :
    ∀ (k v stop : Nat), v ≤ stop → stop < 2 ^ 128 →
      (Ipv6NetworkIterator.mk (some v) stop).out k =
        if k ≤ stop - v then some (v + k) else none := by
  intro k
  induction k with
  | zero =>
    intro v stop hv hstop
    rw [Ipv6NetworkIterator.out, Ipv6NetworkIterator.step]
    show some v = if 0 ≤ stop - v then some (v + 0) else none
    rw [if_pos (Nat.zero_le _), Nat.add_zero]
  | succ k ih =>
    intro v stop hv hstop
    rw [Ipv6NetworkIterator.out, Ipv6NetworkIterator.step]
    show (Ipv6NetworkIterator.mk
        (if v = stop then none else some ((v + 1) % 2 ^ 128)) stop).out k =
      if k + 1 ≤ stop - v then some (v + (k + 1)) else none
    by_cases h : v = stop
    · rw [if_pos h, Ipv6NetworkIterator.out_none, if_neg (by omega)]
    · rw [if_neg h, Nat.mod_eq_of_lt (by omega), ih (v + 1) stop (by omega) hstop]
      by_cases h2 : k ≤ stop - (v + 1)
      · rw [if_pos h2, if_pos (by omega)]
        congr 1
        omega
      · rw [if_neg h2, if_neg (by omega)]

lemma ipv4_network_le {n : Ipv4Network} (ha : n.addr < 2 ^ 32)
    (hp : n.pfx ≤ 32) : n.network ≤ 2 ^ 32 - 2 ^ (32 - n.pfx) := by
  rw [Ipv4Network.network, ipv4_mask_eq hp]
  exact masked_le (by omega) ha

lemma ipv6_network_le {n : Ipv6Network} (ha : n.addr < 2 ^ 128)
    (hp : n.pfx ≤ 128) : n.network ≤ 2 ^ 128 - 2 ^ (128 - n.pfx) := by
  rw [Ipv6Network.network, ipv6_mask_eq hp]
  exact masked_le (by omega) ha

/-- The IPv6 iterator starts at the network address and stops at the
broadcast address: the `checked_shl`/`checked_shr` dance in `iter` recomputes
exactly `mask`/`!mask`. -/
lemma Ipv6Network.iter_eq {n : Ipv6Network} (hp : n.pfx ≤ 128) :
    n.iter = ⟨some n.network, n.broadcast⟩ := by
  rw [Ipv6Network.iter]
  have hm : (if 128 ≤ 128 - n.pfx then 0
      else ((2 ^ 128 - 1) <<< (128 - n.pfx)) % 2 ^ 128) = n.mask := by
    rw [Ipv6Network.mask]
    by_cases h0 : n.pfx = 0
    · rw [if_pos (by omega), if_pos h0]
    · rw [if_neg (by omega), if_neg h0]
  have hm2 : (if 128 ≤ n.pfx then 0 else (2 ^ 128 - 1) >>> n.pfx) =
      (2 ^ 128 - 1) ^^^ n.mask := by
    rw [ipv6_mask_eq hp, compl_window (by omega)]
    by_cases h1 : 128 ≤ n.pfx
    · rw [if_pos h1, show (128 : Nat) - n.pfx = 0 by omega]
      norm_num
    · rw [if_neg h1, all_ones_shiftRight hp]
  rw [hm, hm2]
  rfl

lemma Ipv6Network.network_le_broadcast {n : Ipv6Network} (ha : n.addr < 2 ^ 128)
    (hp : n.pfx ≤ 128) : n.network ≤ n.broadcast := by
  rw [ipv6_broadcast_eq ha hp]
  omega

lemma Ipv6Network.broadcast_lt {n : Ipv6Network} (ha : n.addr < 2 ^ 128)
    (hp : n.pfx ≤ 128) : n.broadcast < 2 ^ 128 := by
  rw [ipv6_broadcast_eq ha hp]
  have h1 := ipv6_network_le ha hp
  have h2 : (0 : Nat) < 2 ^ (128 - n.pfx) :=
    Nat.pos_pow_of_pos _ (by norm_num)
  have h3 : (2 : Nat) ^ (128 - n.pfx) ≤ 2 ^ 128 :=
    Nat.pow_le_pow_right (by norm_num) (by omega)
  omega

/-- C6 (IPv4 half): the iterator enumerates `network + k` for `k < size`. -/
lemma ipv4_iter_spec {n : Ipv4Network} (ha : n.addr < 2 ^ 32) (hp : n.pfx ≤ 32)
    (k : Nat) :
    n.iter.out k = if k < n.size then some (n.network + k) else none := by
  rw [Ipv4Network.iter]
  have hstop : n.network + n.size ≤ 2 ^ 32 := by
    have h1 := ipv4_network_le ha hp
    have h2 : (2 : Nat) ^ (32 - n.pfx) ≤ 2 ^ 32 :=
      Nat.pow_le_pow_right (by norm_num) (by omega)
    rw [Ipv4Network.size]
    omega
  rw [ipv4_iter_out_spec k _ _ hstop]
  by_cases h : k < n.size
  · rw [if_pos (by omega), if_pos h]
  · rw [if_neg (by omega), if_neg h]

/-- C6 (IPv6 half): the iterator enumerates `network + k` for
`k ≤ broadcast - network`. -/
lemma ipv6_iter_spec {n : Ipv6Network} (ha : n.addr < 2 ^ 128)
    (hp : n.pfx ≤ 128) (k : Nat) :
    n.iter.out k =
      if k ≤ n.broadcast - n.network then some (n.network + k) else none := by
  rw [Ipv6Network.iter_eq hp,
    ipv6_iter_out_spec k _ _ (Ipv6Network.network_le_broadcast ha hp)
      (Ipv6Network.broadcast_lt ha hp)]

/-! ## Claim theorems C6, C7, C10 -/

/-- C6: for every IPv4 and IPv6 network (prefix 0 included), `iter()` yields
exactly the addresses `network, network+1, …` in increasing order: the `k`-th
advance returns `network + k` while it is in range (up to `broadcast`
inclusive — for IPv4, `network + (size - 1) = broadcast`; for IPv6 the range
bound is `broadcast` itself) and every later advance returns `none`. No
wraparound occurs: the yielded values are the plain sums. -/
theorem iter_enumerates_range (n4 : Ipv4Network) (n6 : Ipv6Network)
    (h4a : n4.addr < 2 ^ 32) (h4p : n4.pfx ≤ 32)
    (h6a : n6.addr < 2 ^ 128) (h6p : n6.pfx ≤ 128) :
    (∀ k, n4.iter.out k = if k < n4.size then some (n4.network + k) else none) ∧
    n4.network + (n4.size - 1) = n4.broadcast ∧
    (∀ k, n6.iter.out k =
        if k ≤ n6.broadcast - n6.network then some (n6.network + k) else none) ∧
    n6.broadcast - n6.network = n6.size - (if n6.pfx = 0 then 0 else 1) := by
  refine ⟨fun k => ipv4_iter_spec h4a h4p k, ?_, fun k => ipv6_iter_spec h6a h6p k, ?_⟩
  · rw [ipv4_broadcast_eq h4a h4p, Ipv4Network.size]
  · rw [ipv6_broadcast_eq h6a h6p, Ipv6Network.size]
    by_cases h0 : n6.pfx = 0
    · rw [if_pos h0, if_pos h0, h0]
      omega
    · rw [if_neg h0, if_neg h0, Nat.one_shiftLeft]
      omega

/-- Witness for C6 at `192.168.122.1/30` and `::5/126`. -/
theorem iter_enumerates_range_witness :
    ((⟨0xC0A87A01, 30⟩ : Ipv4Network).addr < 2 ^ 32 ∧
     (⟨0xC0A87A01, 30⟩ : Ipv4Network).pfx ≤ 32 ∧
     (⟨5, 126⟩ : Ipv6Network).addr < 2 ^ 128 ∧
     (⟨5, 126⟩ : Ipv6Network).pfx ≤ 128) ∧
    (⟨0xC0A87A01, 30⟩ : Ipv4Network).iter.out 2 =
      (if 2 < (⟨0xC0A87A01, 30⟩ : Ipv4Network).size then
        some ((⟨0xC0A87A01, 30⟩ : Ipv4Network).network + 2) else none) :=
  ⟨⟨by decide, by decide, by decide, by decide⟩,
   (iter_enumerates_range ⟨0xC0A87A01, 30⟩ ⟨5, 126⟩
      (by decide) (by decide) (by decide) (by decide)).1 2⟩

/-- C7: `Ipv6Network::size` is `2^(128 - p)` for `1 ≤ p ≤ 128` and
`2^128 - 1` (the maximum `u128`, not an overflowed zero) for `p = 0`. -/
theorem ipv6_size_pow (n : Ipv6Network) (hp : n.pfx ≤ 128) :
    (1 ≤ n.pfx → n.size = 2 ^ (128 - n.pfx)) ∧
    (n.pfx = 0 → n.size = 2 ^ 128 - 1) := by
  constructor
  · intro h1
    rw [Ipv6Network.size, if_neg (by omega), Nat.one_shiftLeft]
  · intro h0
    rw [Ipv6Network.size, if_pos h0]

/-- Witness for C7 at `::/0` and `2001:db8::/32`. -/
theorem ipv6_size_pow_witness :
    ((⟨0, 0⟩ : Ipv6Network).pfx ≤ 128 ∧ (⟨0x20010DB8 <<< 96, 32⟩ : Ipv6Network).pfx ≤ 128) ∧
    (⟨0, 0⟩ : Ipv6Network).size = 2 ^ 128 - 1 ∧
    (⟨0x20010DB8 <<< 96, 32⟩ : Ipv6Network).size =
      2 ^ (128 - (⟨0x20010DB8 <<< 96, 32⟩ : Ipv6Network).pfx) :=
  ⟨⟨by decide, by decide⟩,
   (ipv6_size_pow ⟨0, 0⟩ (by decide)).2 rfl,
   (ipv6_size_pow ⟨0x20010DB8 <<< 96, 32⟩ (by decide)).1 (by decide)⟩

/-- C10: for both families, `nth(i)` returns `some (network + i)` exactly when
`i < size`, and the `u32`/`u128` addition `network() + i` never overflows the
address width (the sum is below `2^W`, so the embedded truncation is the
identity); for `i ≥ size`, `nth` returns `none`. -/
theorem nth_no_overflow (n4 : Ipv4Network) (n6 : Ipv6Network)
    (h4a : n4.addr < 2 ^ 32) (h4p : n4.pfx ≤ 32)
    (h6a : n6.addr < 2 ^ 128) (h6p : n6.pfx ≤ 128) :
    (∀ i, (i < n4.size → n4.network + i < 2 ^ 32 ∧ n4.nth i = some (n4.network + i)) ∧
      (n4.size ≤ i → n4.nth i = none)) ∧
    (∀ i, (i < n6.size → n6.network + i < 2 ^ 128 ∧ n6.nth i = some (n6.network + i)) ∧
      (n6.size ≤ i → n6.nth i = none)) := by
  constructor
  · intro i
    constructor
    · intro hi
      have hb := ipv4_network_le h4a h4p
      have hs : n4.size = 2 ^ (32 - n4.pfx) := rfl
      have hlt : n4.network + i < 2 ^ 32 := by
        have : (2 : Nat) ^ (32 - n4.pfx) ≤ 2 ^ 32 :=
          Nat.pow_le_pow_right (by norm_num) (by omega)
        omega
      exact ⟨hlt, by rw [Ipv4Network.nth, if_pos hi, Nat.mod_eq_of_lt hlt]⟩
    · intro hi
      rw [Ipv4Network.nth, if_neg (by omega)]
  · intro i
    constructor
    · intro hi
      have hlt : n6.network + i < 2 ^ 128 := by
        by_cases h0 : n6.pfx = 0
        · have hnet : n6.network = 0 := by
            rw [Ipv6Network.network, Ipv6Network.mask, if_pos h0, Nat.and_zero]
          rw [Ipv6Network.size, if_pos h0] at hi
          omega
        · have hb := ipv6_network_le h6a h6p
          rw [Ipv6Network.size, if_neg h0, Nat.one_shiftLeft] at hi
          have : (2 : Nat) ^ (128 - n6.pfx) ≤ 2 ^ 128 :=
            Nat.pow_le_pow_right (by norm_num) (by omega)
          omega
      exact ⟨hlt, by rw [Ipv6Network.nth, if_pos hi, Nat.mod_eq_of_lt hlt]⟩
    · intro hi
      rw [Ipv6Network.nth, if_neg (by omega)]

/-- Witness for C10 at `10.0.0.1/24` (index 255 in range, 256 out) and
`ff01::/32`. -/
theorem nth_no_overflow_witness :
    ((⟨0x0A000001, 24⟩ : Ipv4Network).addr < 2 ^ 32 ∧
     (⟨0x0A000001, 24⟩ : Ipv4Network).pfx ≤ 32 ∧
     (⟨0xFF01 <<< 112, 32⟩ : Ipv6Network).addr < 2 ^ 128 ∧
     (⟨0xFF01 <<< 112, 32⟩ : Ipv6Network).pfx ≤ 128 ∧
     (255 : Nat) < (⟨0x0A000001, 24⟩ : Ipv4Network).size ∧
     (⟨0x0A000001, 24⟩ : Ipv4Network).size ≤ 256) ∧
    ((⟨0x0A000001, 24⟩ : Ipv4Network).network + 255 < 2 ^ 32 ∧
     (⟨0x0A000001, 24⟩ : Ipv4Network).nth 255 =
       some ((⟨0x0A000001, 24⟩ : Ipv4Network).network + 255)) ∧
    (⟨0x0A000001, 24⟩ : Ipv4Network).nth 256 = none :=
  ⟨⟨by decide, by decide, by decide, by decide, by decide, by decide⟩,
   ((nth_no_overflow ⟨0x0A000001, 24⟩ ⟨0xFF01 <<< 112, 32⟩
      (by decide) (by decide) (by decide) (by decide)).1 255).1 (by decide),
   ((nth_no_overflow ⟨0x0A000001, 24⟩ ⟨0xFF01 <<< 112, 32⟩
      (by decide) (by decide) (by decide) (by decide)).1 256).2 (by decide)⟩

/-! ## Claims C4 and C5 (corrected) -/

/-- C4 counterexample: `NetworkSize::V6(100)` has a numeric value that fits in
32 bits, yet the narrowing conversion fails — the claim's "regardless of
whether it carries the V4 or the V6 tag" is false. -/
theorem networkSize_tryFrom_counterexample :
    u32TryFromNetworkSize (.V6 100) = .error .networkIsTooLarge ∧
    (100 : Nat) < 2 ^ 32 := by
  constructor
  · rfl
  · decide

/-- C4 amended: the narrowing succeeds exactly on `V4`-tagged values (returning
the carried value) and fails with `NetworkIsTooLarge` on every `V6`-tagged
value, regardless of its magnitude. -/
theorem networkSize_tryFrom_by_tag (ns : NetworkSize) :
    (∀ v, u32TryFromNetworkSize ns = .ok v ↔ ns = .V4 v) ∧
    (∀ x, u32TryFromNetworkSize (.V6 x) = .error .networkIsTooLarge) := by
  constructor
  · intro v
    cases ns with
    | V4 a =>
      constructor
      · intro h
        cases h1 : u32TryFromNetworkSize (NetworkSize.V4 a)
        · rw [u32TryFromNetworkSize] at h1
          exact absurd h1 (by simp)
        · rw [u32TryFromNetworkSize] at h
          cases h
          rfl
      · intro h
        cases h
        rfl
    | V6 a =>
      constructor
      · intro h
        rw [u32TryFromNetworkSize] at h
        cases h
      · intro h
        cases h
  · intro x
    rfl

/-- C5 counterexample: for `self = 1::/128` and `other = 1::1/16` (the
subtrahend of the comparison having nonzero host bits), `other`'s network
address is `≤ self`'s and `other`'s broadcast is `≥ self`'s — the claimed
condition holds — yet `is_subnet_of` returns `false`, because the code
compares the raw stored addresses (`ip()`), not the network addresses. -/
theorem ipv6_is_subnet_of_counterexample :
    Ipv6Network.is_subnet_of ⟨2 ^ 112, 128⟩ ⟨2 ^ 112 + 1, 16⟩ = false ∧
    (⟨2 ^ 112 + 1, 16⟩ : Ipv6Network).network ≤
      (⟨2 ^ 112, 128⟩ : Ipv6Network).network ∧
    (⟨2 ^ 112, 128⟩ : Ipv6Network).broadcast ≤
      (⟨2 ^ 112 + 1, 16⟩ : Ipv6Network).broadcast := by
  refine ⟨by decide, by decide, by decide⟩

/-- C5 amended: restricted to operands whose stored address equals their
network address (no host bits set), `is_subnet_of other` is true iff
`other.network ≤ self.network` and `other.broadcast ≥ self.broadcast`.
(With host bits set in `other`, the code compares `ip()`, not `network()`,
and the equivalence fails.) -/
theorem ipv6_is_subnet_of_range (self other : Ipv6Network)
    (hs : self.addr = self.network) (ho : other.addr = other.network) :
    (Ipv6Network.is_subnet_of self other = true ↔
      (other.network ≤ self.network ∧ self.broadcast ≤ other.broadcast)) := by
  rw [Ipv6Network.is_subnet_of, ← hs, ← ho]
  simp

/-- Witness for the amended C5 at `2000:aaa::/56` ⊆ `2000:aaa::/48`. -/
theorem ipv6_is_subnet_of_range_witness :
    ((⟨0x20000AAA <<< 96, 56⟩ : Ipv6Network).addr =
      (⟨0x20000AAA <<< 96, 56⟩ : Ipv6Network).network ∧
     (⟨0x20000AAA <<< 96, 48⟩ : Ipv6Network).addr =
      (⟨0x20000AAA <<< 96, 48⟩ : Ipv6Network).network) ∧
    (Ipv6Network.is_subnet_of ⟨0x20000AAA <<< 96, 56⟩ ⟨0x20000AAA <<< 96, 48⟩ = true ↔
      ((⟨0x20000AAA <<< 96, 48⟩ : Ipv6Network).network ≤
        (⟨0x20000AAA <<< 96, 56⟩ : Ipv6Network).network ∧
       (⟨0x20000AAA <<< 96, 56⟩ : Ipv6Network).broadcast ≤
        (⟨0x20000AAA <<< 96, 48⟩ : Ipv6Network).broadcast)) :=
  ⟨⟨by decide, by decide⟩,
   ipv6_is_subnet_of_range ⟨0x20000AAA <<< 96, 56⟩ ⟨0x20000AAA <<< 96, 48⟩
     (by decide) (by decide)⟩

/-! ## Claims C2 and C9 (code bugs in the IPv6 `Sub` impl) -/

/-- C2: `impl Sub for Ipv6Network` computes its bit positions from `32`, not
`128`. For minuend `2000::/16` and subtrahend `2000:aa00::/24` (subtrahend
inside the minuend, both prefixes small enough that no `u8` underflow occurs,
so debug and release builds agree), the produced cursor runs `bit_position`
from `8 = 32 - 24` to `16 = 32 - 16` — not from `104 = 128 - 24` to
`112 = 128 - 16` as the claim states — and the first yielded block therefore
has prefix `120 = 128 - 8` instead of `24`. -/
theorem ipv6_sub_uses_32_based_bit_positions :
    Ipv6Network.sub ⟨0x2000 <<< 112, 16⟩ ⟨0x2000AA00 <<< 96, 24⟩ =
      .multipleNetworks ⟨0x2000AA00 <<< 96, 8, 16⟩ ∧
    ((8 : Nat) ≠ 128 - 24 ∧ (16 : Nat) ≠ 128 - 16) ∧
    (Ipv6Network.sub ⟨0x2000 <<< 112, 16⟩ ⟨0x2000AA00 <<< 96, 24⟩).out 0 =
      some (.ok ⟨(0x2000AA00 <<< 96) + 2 ^ 8, 120⟩) ∧
    (120 : Nat) ≠ 24 := by
  refine ⟨by decide, ⟨by decide, by decide⟩, by decide, by decide⟩

/-- C9: the partition cursor's internal `Ipv6Network::new(..).expect(..)` can
fail. For minuend `2000::/36` minus subtrahend `2000::0:1:0:0:0/56` (subtrahend
inside the minuend), the `u8` expressions `32 - 56` and `32 - 36` wrap to
`232` and `252`, and the first `next` call computes prefix `(128 - 232) % 256 =
152 > 128`, so the internal construction returns `InvalidPrefix` and the
`expect` aborts. (Under debug overflow checking the program aborts even
earlier, inside `sub` itself, at `32 - other.prefix()`.) -/
theorem ipv6_sub_cursor_construction_fails :
    Ipv6Network.sub ⟨0x2000 <<< 112, 36⟩ ⟨(0x2000 <<< 112) + 2 ^ 80, 56⟩ =
      .multipleNetworks ⟨(0x2000 <<< 112) + 2 ^ 80, 232, 252⟩ ∧
    (Ipv6Network.sub ⟨0x2000 <<< 112, 36⟩ ⟨(0x2000 <<< 112) + 2 ^ 80, 56⟩).out 0 =
      some (.error .invalidPfx) := by
  refine ⟨by decide, by decide⟩

/-! ## Mask-to-prefix conversion (claim C8) -/

/-- Single-word completeness of the `leading_zeros`-based scan: if the check
`(m << (w - bitlen(!m))) % 2^w = 0` passes, `m` is the contiguous mask with
`bitlen(!m)` low zero bits. -/
lemma word_mask_complete {w m : Nat} (hw : w ≤ 128) (hm : m < 2 ^ w)
    (hchk : (m <<< (w - natBitLen ((2 ^ w - 1) ^^^ m))) % 2 ^ w = 0) :
    natBitLen ((2 ^ w - 1) ^^^ m) ≤ w ∧
    m = 2 ^ w - 2 ^ natBitLen ((2 ^ w - 1) ^^^ m) := by
  have hones : (2 : Nat) ^ w - 1 < 2 ^ w := by
    have : (0 : Nat) < 2 ^ w := Nat.pos_pow_of_pos w (by norm_num)
    omega
  have hc : (2 ^ w - 1) ^^^ m < 2 ^ w := Nat.xor_lt_two_pow hones hm
  set c := (2 ^ w - 1) ^^^ m with hcdef
  set bl := natBitLen c with hbldef
  have hbl : bl ≤ w := natBitLen_le (by omega) hc
  -- the check gives divisibility by 2^bl
  have hdvd : 2 ^ bl ∣ m := by
    have h1 : 2 ^ bl * 2 ^ (w - bl) ∣ m * 2 ^ (w - bl) := by
      rw [← Nat.pow_add, show bl + (w - bl) = w by omega]
      apply Nat.dvd_of_mod_eq_zero
      rw [← Nat.shiftLeft_eq]
      exact hchk
    exact (Nat.mul_dvd_mul_iff_right
      (Nat.pos_pow_of_pos (w - bl) (by norm_num))).1 h1
  have hlow : ∀ i, i < bl → m.testBit i = false := by
    intro i hi
    obtain ⟨t, ht⟩ := hdvd
    rw [ht, show 2 ^ bl * t = 2 ^ bl * t + 0 by omega,
      Nat.testBit_mul_pow_two_add _ (Nat.pos_pow_of_pos bl (by norm_num)),
      if_pos hi]
    exact Nat.zero_testBit i
  refine ⟨hbl, ?_⟩
  by_cases hne : c = 0
  · have hm' : 2 ^ w - 1 = m := Nat.xor_eq_zero.1 hne
    have hbl0 : bl = 0 := by
      rw [hbldef, hne]
      rfl
    rw [hbl0, pow_zero, ← hm']
  · obtain ⟨hsp1, hsp2⟩ := natBitLen_spec
      (lt_of_lt_of_le hc (Nat.pow_le_pow_right (by norm_num) (by omega))) hne
    apply Nat.eq_of_testBit_eq
    intro i
    rw [testBit_window hbl]
    by_cases h1 : i < bl
    · rw [hlow i h1]
      simp [h1]
    · by_cases h2 : i < w
      · have hcbit : c.testBit i = false := testBit_ge_false hsp2 (by omega)
        rw [hcdef, Nat.testBit_xor, Nat.testBit_two_pow_sub_one] at hcbit
        simp only [h2, decide_eq_true_eq, Bool.true_xor] at hcbit
        have : m.testBit i = true := by
          by_contra hmb
          simp [show decide (i < w) = true by simp [h2]] at hcbit
          simp [hcbit] at hmb
        rw [this]
        simp [h1, h2]
        omega
      · rw [testBit_ge_false hm (by omega)]
        simp [h2]

/-- Completeness for IPv4: an `Ok p` answer forces the contiguous mask form. -/
lemma ipv4_mask_to_pfx_ok {m p : Nat} (hm : m < 2 ^ 32)
    (h : ipv4_mask_to_pfx m = .ok p) : p ≤ 32 ∧ m = 2 ^ 32 - 2 ^ (32 - p) := by
  rw [ipv4_mask_to_pfx] at h
  by_cases hchk : (m <<< (u32LeadingZeros ((2 ^ 32 - 1) ^^^ m))) &&& 0xffffffff ≠ 0
  · rw [if_pos hchk] at h
    cases h
  · rw [if_neg hchk] at h
    cases h
    push_neg at hchk
    rw [show (0xffffffff : Nat) = 2 ^ 32 - 1 by norm_num,
      Nat.and_pow_two_sub_one_eq_mod] at hchk
    have hb32 : natBitLen ((2 ^ 32 - 1) ^^^ m) ≤ 32 :=
      natBitLen_le (by omega)
        (Nat.xor_lt_two_pow (by norm_num) hm)
    obtain ⟨hbl, heq⟩ := word_mask_complete (by norm_num) hm
      (by rw [show (32 : Nat) - natBitLen ((2 ^ 32 - 1) ^^^ m) =
            u32LeadingZeros ((2 ^ 32 - 1) ^^^ m) from rfl]
          exact hchk)
    refine ⟨by rw [u32LeadingZeros]; omega, ?_⟩
    have h32 : 32 - u32LeadingZeros ((2 ^ 32 - 1) ^^^ m) =
        natBitLen ((2 ^ 32 - 1) ^^^ m) := by
      rw [u32LeadingZeros]
      omega
    rw [h32]
    exact heq

/-- The IPv4 conversion only ever fails with `InvalidPrefix`. -/
lemma ipv4_mask_to_pfx_error_shape {m : Nat} :
    ipv4_mask_to_pfx m = .error .invalidPfx ∨
    ∃ p, ipv4_mask_to_pfx m = .ok p := by
  rw [ipv4_mask_to_pfx]
  by_cases hchk : (m <<< (u32LeadingZeros ((2 ^ 32 - 1) ^^^ m))) &&& 0xffffffff ≠ 0
  · left
    rw [if_pos hchk]
  · right
    exact ⟨_, by rw [if_neg hchk]⟩

/-- A contiguous window mask has no one-bit after a zero-bit. -/
lemma window_no_gap {w p i j m : Nat} (hp : p ≤ w) (hij : j < i) (hi : i < w)
    (hbi : m.testBit i = false) (hbj : m.testBit j = true) :
    m ≠ 2 ^ w - 2 ^ (w - p) := by
  intro hmask
  rw [hmask, testBit_window (by omega)] at hbi hbj
  simp only [Bool.and_eq_true, decide_eq_true_eq] at hbj
  simp only [Bool.and_eq_false_iff] at hbi
  rcases hbi with hbi | hbi <;> simp only [decide_eq_false_iff_not] at hbi <;> omega

/-- IPv4 round-trip over every valid prefix length (exhaustive check). -/
lemma ipv4_roundtrip : ∀ p, p ≤ 32 → ipv4_mask_to_pfx (2 ^ 32 - 2 ^ (32 - p)) = .ok p := by
  decide

/-- All-zero suffix recombines to zero. -/
lemma allZero_combine : ∀ l, allZero l = true → combineSegs l = 0 := by
  intro l
  induction l with
  | nil => intro _; rfl
  | cons s rest ih =>
    intro h
    rw [allZero, Bool.and_eq_true, beq_iff_eq] at h
    rw [combineSegs, ih h.2, h.1]
    omega

/-- Completeness of the segment scan: an `Ok p` answer forces the segments to
recombine into the contiguous mask with `p` leading ones. -/
lemma segsToPfx_ok : ∀ (l : List Nat) (p : Nat), (∀ s ∈ l, s < 2 ^ 16) →
    ipv6MaskSegsToPfx l = .ok p →
    p ≤ 16 * l.length ∧
    combineSegs l = 2 ^ (16 * l.length) - 2 ^ (16 * l.length - p) := by
  intro l
  induction l with
  | nil =>
    intro p _ h
    rw [ipv6MaskSegsToPfx] at h
    cases h
    exact ⟨by omega, by simp [combineSegs]⟩
  | cons s rest ih =>
    intro p hbounds h
    have hrest : ∀ x ∈ rest, x < 2 ^ 16 := fun x hx =>
      hbounds x (List.mem_cons_of_mem s hx)
    have hs16 : s < 2 ^ 16 := hbounds s (List.mem_cons_self s rest)
    rw [ipv6MaskSegsToPfx] at h
    by_cases hff : s = 0xffff
    · rw [if_pos hff] at h
      cases hrec : ipv6MaskSegsToPfx rest with
      | ok p' =>
        rw [hrec] at h
        cases h
        obtain ⟨hp', hcomb⟩ := ih p' hrest hrec
        have hlen : (s :: rest).length = rest.length + 1 := rfl
        have hmul : 16 * (rest.length + 1) = 16 * rest.length + 16 := by omega
        have hpow : (2 : Nat) ^ (16 * rest.length + 16) =
            65536 * 2 ^ (16 * rest.length) := by
          rw [Nat.pow_add]
          norm_num
          omega
        have hle : (2 : Nat) ^ (16 * rest.length - p') ≤ 2 ^ (16 * rest.length) :=
          Nat.pow_le_pow_right (by norm_num) (by omega)
        have hexp : 16 * rest.length + 16 - (16 + p') = 16 * rest.length - p' := by
          omega
        rw [combineSegs, hlen, hmul, hexp, hpow, hcomb, hff]
        constructor
        · omega
        · omega
      | error e =>
        rw [hrec] at h
        cases h
    · rw [if_neg hff] at h
      by_cases h0 : s = 0
      · rw [if_pos h0] at h
        by_cases hz : allZero rest = true
        · rw [if_pos hz] at h
          cases h
          rw [combineSegs, allZero_combine rest hz, h0, Nat.sub_zero]
          constructor
          · omega
          · omega
        · rw [if_neg hz] at h
          cases h
      · rw [if_neg h0] at h
        by_cases hchk : (s <<< u16LeadingZeros ((2 ^ 16 - 1) ^^^ s)) % 2 ^ 16 ≠ 0
        · rw [if_pos hchk] at h
          cases h
        · rw [if_neg hchk] at h
          by_cases hz : allZero rest = true
          · rw [if_pos hz] at h
            cases h
            push_neg at hchk
            obtain ⟨hbl, heq⟩ := word_mask_complete (w := 16) (by norm_num) hs16 hchk
            set bl := natBitLen ((2 ^ 16 - 1) ^^^ s) with hbldef
            have hp16 : u16LeadingZeros ((2 ^ 16 - 1) ^^^ s) = 16 - bl := rfl
            rw [combineSegs, allZero_combine rest hz, hp16, List.length_cons]
            have hA : 16 * (rest.length + 1) = 16 * rest.length + 16 := by omega
            have hB : 16 * (rest.length + 1) - (16 - bl) =
                16 * rest.length + bl := by omega
            have hsub : (2 ^ 16 - 2 ^ bl) * 2 ^ (16 * rest.length) =
                2 ^ (16 * rest.length + 16) - 2 ^ (16 * rest.length + bl) := by
              rw [Nat.sub_mul, ← Nat.pow_add, ← Nat.pow_add,
                Nat.add_comm 16 (16 * rest.length), Nat.add_comm bl (16 * rest.length)]
            rw [hB, hA, heq, hsub, Nat.add_zero]
            constructor
            · omega
            · rfl
          · rw [if_neg hz] at h
            cases h

/-- The eight 16-bit segments recombine into the original 128-bit value. -/
lemma combine_segments {m : Nat} (hm : m < 2 ^ 128) :
    combineSegs (segments m) = m := by
  simp only [segments, combineSegs, List.length, Nat.shiftRight_eq_div_pow]
  norm_num
  omega

set_option maxRecDepth 10000 in
/-- IPv6 round-trip over every valid prefix length (exhaustive check). -/
lemma ipv6_roundtrip : ∀ p, p ≤ 128 →
    ipv6_mask_to_pfx (2 ^ 128 - 2 ^ (128 - p)) = .ok p := by
  decide

/-- The segment scan only ever fails with `InvalidPrefix`. -/
lemma segsToPfx_shape : ∀ l : List Nat,
    ipv6MaskSegsToPfx l = .error .invalidPfx ∨
    ∃ p, ipv6MaskSegsToPfx l = .ok p := by
  intro l
  induction l with
  | nil => exact Or.inr ⟨0, rfl⟩
  | cons s rest ih =>
    rw [ipv6MaskSegsToPfx]
    by_cases hff : s = 0xffff
    · rw [if_pos hff]
      rcases ih with h | ⟨p, hp⟩
      · rw [h]
        exact Or.inl rfl
      · rw [hp]
        exact Or.inr ⟨16 + p, rfl⟩
    · rw [if_neg hff]
      by_cases h0 : s = 0
      · rw [if_pos h0]
        by_cases hz : allZero rest = true
        · rw [if_pos hz]
          exact Or.inr ⟨0, rfl⟩
        · rw [if_neg hz]
          exact Or.inl rfl
      · rw [if_neg h0]
        by_cases hchk : (s <<< u16LeadingZeros ((2 ^ 16 - 1) ^^^ s)) % 2 ^ 16 ≠ 0
        · rw [if_pos hchk]
          exact Or.inl rfl
        · rw [if_neg hchk]
          by_cases hz : allZero rest = true
          · rw [if_pos hz]
            exact Or.inr ⟨_, rfl⟩
          · rw [if_neg hz]
            exact Or.inl rfl

/-- Completeness for IPv6: an `Ok p` answer forces the contiguous mask form. -/
lemma ipv6_mask_to_pfx_ok {m p : Nat} (hm : m < 2 ^ 128)
    (h : ipv6_mask_to_pfx m = .ok p) : p ≤ 128 ∧ m = 2 ^ 128 - 2 ^ (128 - p) := by
  have hbounds : ∀ s ∈ segments m, s < 2 ^ 16 := by
    intro s hs
    simp only [segments, List.mem_cons, List.not_mem_nil, or_false] at hs
    rcases hs with rfl | rfl | rfl | rfl | rfl | rfl | rfl | rfl <;>
      exact Nat.mod_lt _ (by norm_num)
  obtain ⟨hp, hcomb⟩ := segsToPfx_ok (segments m) p hbounds h
  have hlen : (segments m).length = 8 := rfl
  rw [hlen] at hp hcomb
  rw [combine_segments hm] at hcomb
  norm_num at hp hcomb
  exact ⟨hp, hcomb⟩

/-! ## Claim theorem C8 -/

/-- C8: for both families, converting the mask with the top `p` bits set back
through `mask_to_prefix` returns exactly `p` for every valid `p ≤ W`
(round-trip through the `mask()` of any network with that prefix), and
`mask_to_prefix` rejects with `InvalidPrefix` every address whose bit pattern
has a one-bit strictly after (less significant than) a zero-bit. -/
theorem mask_pfx_roundtrip_and_reject (n4 : Ipv4Network) (n6 : Ipv6Network)
    (h4 : n4.pfx ≤ 32) (h6 : n6.pfx ≤ 128) :
    ipv4_mask_to_pfx n4.mask = .ok n4.pfx ∧
    ipv6_mask_to_pfx n6.mask = .ok n6.pfx ∧
    (∀ m i j, m < 2 ^ 32 → j < i → i < 32 → m.testBit i = false →
      m.testBit j = true → ipv4_mask_to_pfx m = .error .invalidPfx) ∧
    (∀ m i j, m < 2 ^ 128 → j < i → i < 128 → m.testBit i = false →
      m.testBit j = true → ipv6_mask_to_pfx m = .error .invalidPfx) := by
  refine ⟨?_, ?_, ?_, ?_⟩
  · rw [ipv4_mask_eq h4]
    exact ipv4_roundtrip _ h4
  · rw [ipv6_mask_eq h6]
    exact ipv6_roundtrip _ h6
  · intro m i j hm hij hi hbi hbj
    rcases ipv4_mask_to_pfx_error_shape (m := m) with herr | ⟨p, hp⟩
    · exact herr
    · obtain ⟨hple, heq⟩ := ipv4_mask_to_pfx_ok hm hp
      exact absurd heq (window_no_gap hple hij hi hbi hbj)
  · intro m i j hm hij hi hbi hbj
    rcases segsToPfx_shape (segments m) with herr | ⟨p, hp⟩
    · exact herr
    · obtain ⟨hple, heq⟩ := ipv6_mask_to_pfx_ok hm hp
      exact absurd heq (window_no_gap hple hij hi hbi hbj)

/-- Witness for C8: round-trips at `/24` (IPv4) and `/48` (IPv6), and the
rejection of `255.0.255.0` (one-bit at 15 after zero-bit at 23). -/
theorem mask_pfx_roundtrip_and_reject_witness :
    ((⟨0, 24⟩ : Ipv4Network).pfx ≤ 32 ∧ (⟨0, 48⟩ : Ipv6Network).pfx ≤ 128 ∧
     (0xFF00FF00 : Nat) < 2 ^ 32 ∧ (15 : Nat) < 23 ∧ (23 : Nat) < 32 ∧
     (0xFF00FF00 : Nat).testBit 23 = false ∧ (0xFF00FF00 : Nat).testBit 15 = true) ∧
    ipv4_mask_to_pfx (⟨0, 24⟩ : Ipv4Network).mask = .ok 24 ∧
    ipv4_mask_to_pfx 0xFF00FF00 = .error .invalidPfx :=
  ⟨⟨by decide, by decide, by decide, by decide, by decide, by decide, by decide⟩,
   (mask_pfx_roundtrip_and_reject ⟨0, 24⟩ ⟨0, 48⟩ (by decide) (by decide)).1,
   (mask_pfx_roundtrip_and_reject ⟨0, 24⟩ ⟨0, 48⟩ (by decide) (by decide)).2.2.1
     0xFF00FF00 23 15 (by decide) (by decide) (by decide) (by decide) (by decide)⟩

/-! ## Subtraction engine analysis (claims C1 and C3) -/

lemma Ipv4Network.network_masked {n : Ipv4Network} (hp : n.pfx ≤ 32) :
    n.network &&& (2 ^ 32 - 2 ^ (32 - n.pfx)) = n.network := by
  rw [Ipv4Network.network, ipv4_mask_eq hp, Nat.and_assoc, Nat.and_self]

lemma compl_low_ones {w e : Nat} (he : e ≤ w) :
    (2 ^ w - 1) ^^^ (2 ^ e - 1) = 2 ^ w - 2 ^ e := by
  rw [← compl_window (w := w) (e := e) he, ← Nat.xor_assoc, Nat.xor_self,
    Nat.zero_xor]

lemma empty4_out (k : Nat) : (Ipv4NetworkSubResult.empty).out k = none := by
  induction k with
  | zero => rfl
  | succ k ih => exact ih

lemma single4_out (n : Ipv4Network) (k : Nat) :
    (Ipv4NetworkSubResult.singleNetwork n).out k =
      if k = 0 then some (.ok n) else none := by
  cases k with
  | zero => rfl
  | succ k => exact (empty4_out k).trans (by rw [if_neg (by omega)])

lemma multiple4_step_lt {net bp mx : Nat} (h : bp < mx) (hmx : mx ≤ 32) :
    (Ipv4NetworkSubResult.multipleNetworks ⟨net, bp, mx⟩).step =
      (some (.ok ⟨(net ^^^ (1 <<< bp)) &&& ((2 ^ 32 - 1) ^^^ ((1 <<< bp) - 1)),
          32 - bp⟩),
       .multipleNetworks ⟨net, bp + 1, mx⟩) := by
  have hnew : Ipv4Network.new
      ((net ^^^ (1 <<< bp)) &&& ((2 ^ 32 - 1) ^^^ ((1 <<< bp) - 1))) (32 - bp) =
      .ok ⟨(net ^^^ (1 <<< bp)) &&& ((2 ^ 32 - 1) ^^^ ((1 <<< bp) - 1)),
        32 - bp⟩ := by
    rw [Ipv4Network.new, if_neg (by omega)]
  simp only [Ipv4NetworkSubResult.step, Ipv4NetworkSubSet.step, if_pos h, hnew]

lemma multiple4_step_ge {net bp mx : Nat} (h : ¬bp < mx) :
    (Ipv4NetworkSubResult.multipleNetworks ⟨net, bp, mx⟩).step =
      (none, .empty) := by
  simp only [Ipv4NetworkSubResult.step, Ipv4NetworkSubSet.step, if_neg h]

/-- Full characterization of the partition cursor's output stream: the `k`-th
item is the sibling block at bit position `bp + k` while in range. -/
lemma multiple4_out {net mx : Nat} (hmx : mx ≤ 32) :
    ∀ k bp, (Ipv4NetworkSubResult.multipleNetworks ⟨net, bp, mx⟩).out k =
      if bp + k < mx then
        some (.ok ⟨(net ^^^ (1 <<< (bp + k))) &&&
            ((2 ^ 32 - 1) ^^^ ((1 <<< (bp + k)) - 1)), 32 - (bp + k)⟩)
      else none := by
  intro k
  induction k with
  | zero =>
    intro bp
    rw [Ipv4NetworkSubResult.out]
    by_cases h : bp < mx
    · rw [multiple4_step_lt h hmx, if_pos (by omega)]
      simp only [Nat.add_zero]
    · rw [multiple4_step_ge h, if_neg (by omega)]
  | succ k ih =>
    intro bp
    rw [Ipv4NetworkSubResult.out]
    by_cases h : bp < mx
    · rw [multiple4_step_lt h hmx]
      show (Ipv4NetworkSubResult.multipleNetworks ⟨net, bp + 1, mx⟩).out k = _
      rw [ih (bp + 1)]
      by_cases h2 : bp + 1 + k < mx
      · rw [if_pos h2, if_pos (by omega)]
        rw [show bp + 1 + k = bp + (k + 1) by omega]
      · rw [if_neg h2, if_neg (by omega)]
    · rw [multiple4_step_ge h]
      show (Ipv4NetworkSubResult.empty).out k = _
      rw [empty4_out, if_neg (by omega)]

/-- IPv4 containment rephrased as a masked-equality on the window mask. -/
lemma Ipv4Network.contains_iff_masked {A p a : Nat} (hp : p ≤ 32) :
    ((Ipv4Network.mk A p).contains a = true) ↔
      a &&& (2 ^ 32 - 2 ^ (32 - p)) = A &&& (2 ^ 32 - 2 ^ (32 - p)) := by
  have hm : (Ipv4Network.mk A p).mask = 2 ^ 32 - 2 ^ (32 - p) :=
    ipv4_mask_eq (n := ⟨A, p⟩) hp
  rw [Ipv4Network.contains, beq_iff_eq, Ipv4Network.network, hm]

/-- Membership in a sibling block: agree with the cursor's base address above
bit `b`, differ at bit `b`. -/
lemma sibling_contains_iff {o b a : Nat} (ho : o < 2 ^ 32) (hb : b < 32)
    (ha : a < 2 ^ 32) :
    ((⟨(o ^^^ (1 <<< b)) &&& ((2 ^ 32 - 1) ^^^ ((1 <<< b) - 1)), 32 - b⟩ :
        Ipv4Network).contains a = true) ↔
      ((∀ i, b < i → i < 32 → a.testBit i = o.testBit i) ∧
        a.testBit b = (!o.testBit b)) := by
  have h2b : (1 : Nat) <<< b = 2 ^ b := Nat.one_shiftLeft b
  have hmask : (2 ^ 32 - 1) ^^^ ((1 <<< b) - 1) = 2 ^ 32 - 2 ^ b := by
    rw [h2b]
    exact compl_low_ones (by omega)
  have hpfx : (32 : Nat) - (32 - b) = b := by omega
  rw [Ipv4Network.contains_iff_masked (Nat.sub_le 32 b), hpfx, hmask,
    Nat.and_assoc, Nat.and_self,
    masked_eq_iff (by omega) ha (by rw [Nat.and_assoc, Nat.and_self])]
  have hAbit : ∀ i, b ≤ i → i < 32 →
      ((o ^^^ (1 <<< b)) &&& (2 ^ 32 - 2 ^ b)).testBit i =
        (o.testBit i ^^ decide (b = i)) := by
    intro i hbi hi32
    rw [testBit_and_window (by omega : b ≤ 32), Nat.testBit_xor, h2b,
      Nat.testBit_two_pow]
    simp [hbi, hi32]
  constructor
  · intro hag
    constructor
    · intro i hbi hi32
      have := hag i (by omega) hi32
      rw [hAbit i (by omega) hi32] at this
      rw [this, show decide (b = i) = false by simp; omega]
      cases o.testBit i <;> rfl
    · have := hag b (by omega) hb
      rw [hAbit b (by omega) hb] at this
      rw [this, show decide (b = b) = true by simp]
      cases o.testBit b <;> rfl
  · intro hp i hbi hi32
    rw [hAbit i hbi hi32]
    by_cases hib : i = b
    · subst hib
      rw [hp.2, show decide (i = i) = true by simp]
      cases o.testBit i <;> rfl
    · rw [hp.1 i (by omega) hi32, show decide (b = i) = false by simp [Ne.symm hib]]
      cases o.testBit i <;> rfl

lemma sibling_disjoint {o a b b' : Nat} (hbb : b < b') (hb' : b' < 32)
    (h1 : (∀ i, b < i → i < 32 → a.testBit i = o.testBit i) ∧
      a.testBit b = (!o.testBit b))
    (h2 : (∀ i, b' < i → i < 32 → a.testBit i = o.testBit i) ∧
      a.testBit b' = (!o.testBit b')) : False := by
  have hagree := h1.1 b' hbb hb'
  rw [h2.2] at hagree
  cases o.testBit b' <;> simp at hagree

/-- C1: for every pair of IPv4 networks, iterating `self - other` yields only
successfully-constructed networks, which are pairwise disjoint CIDR blocks
whose union of addresses is exactly `{a | a ∈ self ∧ a ∉ other}`. -/
theorem ipv4_sub_partition_correct (self other : Ipv4Network)
    (hsa : self.addr < 2 ^ 32) (hsp : self.pfx ≤ 32)
    (hoa : other.addr < 2 ^ 32) (hop : other.pfx ≤ 32) :
    (∀ k x, (self.sub other).out k = some x →
      ∃ net : Ipv4Network, x = .ok net) ∧
    (∀ a, a < 2 ^ 32 →
      ((∃ k net, (self.sub other).out k = some (.ok net) ∧
          net.contains a = true) ↔
        (self.contains a = true ∧ other.contains a = false))) ∧
    (∀ j k nj nk, j ≠ k →
      (self.sub other).out j = some (.ok nj) →
      (self.sub other).out k = some (.ok nk) →
      ∀ a, a < 2 ^ 32 → ¬(nj.contains a = true ∧ nk.contains a = true)) := by
  have hsub_eq : self.sub other =
      if other.network &&& self.mask = self.network then
        .multipleNetworks
          ⟨other.network, 32 - other.pfx, 32 - self.pfx⟩
      else if self.network &&& other.mask = other.network then .empty
      else .singleNetwork self := rfl
  set e := 32 - self.pfx with he_def
  set l := 32 - other.pfx with hl_def
  set s := self.network with hs_def
  set o := other.network with ho_def
  have he32 : e ≤ 32 := by omega
  have hl32 : l ≤ 32 := by omega
  have hs_lt : s < 2 ^ 32 := Ipv4Network.network_lt hsa
  have ho_lt : o < 2 ^ 32 := Ipv4Network.network_lt hoa
  have hs_masked : s &&& (2 ^ 32 - 2 ^ e) = s := Ipv4Network.network_masked hsp
  have ho_masked : o &&& (2 ^ 32 - 2 ^ l) = o := Ipv4Network.network_masked hop
  have hself_iff : ∀ a : Nat, a < 2 ^ 32 → (self.contains a = true ↔
      ∀ i, e ≤ i → i < 32 → a.testBit i = s.testBit i) := fun a ha =>
    Ipv4Network.contains_iff hsa hsp ha
  have hother_iff : ∀ a : Nat, a < 2 ^ 32 → (other.contains a = true ↔
      ∀ i, l ≤ i → i < 32 → a.testBit i = o.testBit i) := fun a ha =>
    Ipv4Network.contains_iff hoa hop ha
  have hc1_iff : (o &&& self.mask = s) ↔
      ∀ i, e ≤ i → i < 32 → o.testBit i = s.testBit i := by
    rw [ipv4_mask_eq hsp]
    exact masked_eq_iff he32 ho_lt hs_masked
  have hc2_iff : (s &&& other.mask = o) ↔
      ∀ i, l ≤ i → i < 32 → s.testBit i = o.testBit i := by
    rw [ipv4_mask_eq hop]
    exact masked_eq_iff hl32 hs_lt ho_masked
  by_cases hc1 : o &&& self.mask = s
  · -- partition branch
    have hA : ∀ i, e ≤ i → i < 32 → o.testBit i = s.testBit i := hc1_iff.1 hc1
    have hout : ∀ k, (self.sub other).out k =
        if l + k < e then
          some (.ok ⟨(o ^^^ (1 <<< (l + k))) &&&
              ((2 ^ 32 - 1) ^^^ ((1 <<< (l + k)) - 1)), 32 - (l + k)⟩)
        else none := by
      intro k
      rw [hsub_eq, if_pos hc1]
      exact multiple4_out he32 k l
    refine ⟨?_, ?_, ?_⟩
    · intro k x hkx
      rw [hout k] at hkx
      by_cases h : l + k < e
      · rw [if_pos h] at hkx
        cases hkx
        exact ⟨_, rfl⟩
      · rw [if_neg h] at hkx
        cases hkx
    · intro a ha
      constructor
      · rintro ⟨k, net, hk, hcont⟩
        rw [hout k] at hk
        by_cases h : l + k < e
        · rw [if_pos h] at hk
          cases hk
          obtain ⟨hup, hflip⟩ :=
            (sibling_contains_iff ho_lt (by omega) ha).1 hcont
          constructor
          · rw [hself_iff a ha]
            intro i hei hi32
            rw [hup i (by omega) hi32]
            exact hA i hei hi32
          · by_contra hoc
            rw [Bool.not_eq_false] at hoc
            have hagree := (hother_iff a ha).1 hoc (l + k) (by omega) (by omega)
            rw [hflip] at hagree
            cases o.testBit (l + k) <;> simp at hagree
        · rw [if_neg h] at hk
          cases hk
      · rintro ⟨hsc, hoc⟩
        have hsc' := (hself_iff a ha).1 hsc
        have hoc' : ¬∀ i, l ≤ i → i < 32 → a.testBit i = o.testBit i := by
          intro hcon
          rw [← hother_iff a ha] at hcon
          rw [hcon] at hoc
          cases hoc
        push_neg at hoc'
        obtain ⟨i0, hi0l, hi032, hi0ne⟩ := hoc'
        have hi0e : i0 < e := by
          by_contra hge
          exact hi0ne ((hsc' i0 (by omega) hi032).trans
            (hA i0 (by omega) hi032).symm)
        have hi0le : i0 ≤ e - 1 := by omega
        have hP_i0 : (fun i => l ≤ i ∧ a.testBit i ≠ o.testBit i) i0 :=
          ⟨hi0l, hi0ne⟩
        have hPb := Nat.findGreatest_spec
          (P := fun i => l ≤ i ∧ a.testBit i ≠ o.testBit i) hi0le hP_i0
        set b := Nat.findGreatest
          (fun i => l ≤ i ∧ a.testBit i ≠ o.testBit i) (e - 1) with hb_def
        have hble : b ≤ e - 1 := by
          rw [hb_def]
          exact Nat.findGreatest_le (e - 1)
        obtain ⟨hbl, hbne⟩ := hPb
        refine ⟨b - l,
          ⟨(o ^^^ (1 <<< b)) &&& ((2 ^ 32 - 1) ^^^ ((1 <<< b) - 1)), 32 - b⟩,
          ?_, ?_⟩
        · rw [hout (b - l), if_pos (by omega), show l + (b - l) = b by omega]
        · rw [sibling_contains_iff ho_lt (by omega) ha]
          refine ⟨?_, ?_⟩
          · intro i hbi hi32
            by_cases hie : i < e
            · have hnP := Nat.findGreatest_is_greatest
                (P := fun i => l ≤ i ∧ a.testBit i ≠ o.testBit i)
                (by omega : b < i) (by omega : i ≤ e - 1)
              by_contra hne
              exact hnP ⟨by omega, hne⟩
            · exact (hsc' i (by omega) hi32).trans (hA i (by omega) hi32).symm
          · cases hab : a.testBit b <;> cases hob : o.testBit b <;> simp_all
    · intro j k nj nk hjk hj hk a ha hcon
      rw [hout j] at hj
      rw [hout k] at hk
      by_cases h1 : l + j < e
      · rw [if_pos h1] at hj
        cases hj
        by_cases h2 : l + k < e
        · rw [if_pos h2] at hk
          cases hk
          obtain ⟨hcj, hck⟩ := hcon
          have hj' := (sibling_contains_iff ho_lt (by omega) ha).1 hcj
          have hk' := (sibling_contains_iff ho_lt (by omega) ha).1 hck
          rcases Nat.lt_trichotomy (l + j) (l + k) with h | h | h
          · exact sibling_disjoint h (by omega) hj' hk'
          · omega
          · exact sibling_disjoint h (by omega) hk' hj'
        · rw [if_neg h2] at hk
          cases hk
      · rw [if_neg h1] at hj
        cases hj
  · by_cases hc2 : s &&& other.mask = o
    · -- Empty branch: self is inside other
      have hout : ∀ k, (self.sub other).out k = none := by
        intro k
        rw [hsub_eq, if_neg hc1, if_pos hc2]
        exact empty4_out k
      have hB : ∀ i, l ≤ i → i < 32 → s.testBit i = o.testBit i := hc2_iff.1 hc2
      have hle : e ≤ l := by
        by_contra hlt
        apply hc1
        rw [hc1_iff]
        intro i hei hi32
        exact (hB i (by omega) hi32).symm
      refine ⟨?_, ?_, ?_⟩
      · intro k x hkx
        rw [hout k] at hkx
        cases hkx
      · intro a ha
        constructor
        · rintro ⟨k, net, hk, _⟩
          rw [hout k] at hk
          cases hk
        · rintro ⟨hsc, hoc⟩
          exfalso
          have hsc' := (hself_iff a ha).1 hsc
          have hcontr : other.contains a = true := by
            rw [hother_iff a ha]
            intro i hli hi32
            exact (hsc' i (by omega) hi32).trans (hB i hli hi32)
          rw [hcontr] at hoc
          cases hoc
      · intro j k nj nk hjk hj
        rw [hout j] at hj
        cases hj
    · -- SingleNetwork branch: disjoint ranges
      have hout : ∀ k, (self.sub other).out k =
          if k = 0 then some (.ok self) else none := by
        intro k
        rw [hsub_eq, if_neg hc1, if_neg hc2]
        exact single4_out self k
      have hdisj : ∀ a, a < 2 ^ 32 → self.contains a = true →
          other.contains a = false := by
        intro a ha hsc
        by_contra hoc
        rw [Bool.not_eq_false] at hoc
        have hsc' := (hself_iff a ha).1 hsc
        have hoc' := (hother_iff a ha).1 hoc
        by_cases hel : e ≤ l
        · apply hc2
          rw [hc2_iff]
          intro i hli hi32
          exact (hsc' i (by omega) hi32).symm.trans (hoc' i hli hi32)
        · apply hc1
          rw [hc1_iff]
          intro i hei hi32
          exact (hoc' i (by omega) hi32).symm.trans (hsc' i hei hi32)
      refine ⟨?_, ?_, ?_⟩
      · intro k x hkx
        rw [hout k] at hkx
        by_cases h : k = 0
        · rw [if_pos h] at hkx
          cases hkx
          exact ⟨self, rfl⟩
        · rw [if_neg h] at hkx
          cases hkx
      · intro a ha
        constructor
        · rintro ⟨k, net, hk, hcont⟩
          rw [hout k] at hk
          by_cases h : k = 0
          · rw [if_pos h] at hk
            cases hk
            exact ⟨hcont, hdisj a ha hcont⟩
          · rw [if_neg h] at hk
            cases hk
        · rintro ⟨hsc, _⟩
          exact ⟨0, self, by rw [hout 0, if_pos rfl], hsc⟩
      · intro j k nj nk hjk hj hk
        rw [hout j] at hj
        rw [hout k] at hk
        by_cases h1 : j = 0
        · by_cases h2 : k = 0
          · omega
          · rw [if_neg h2] at hk
            cases hk
        · rw [if_neg h1] at hj
          cases hj

/-- Witness for C1 at `10.0.0.0/8 - 10.10.10.0/24`, instantiated at address
`11.0.0.0`. -/
theorem ipv4_sub_partition_correct_witness :
    ((⟨0x0A000000, 8⟩ : Ipv4Network).addr < 2 ^ 32 ∧
     (⟨0x0A000000, 8⟩ : Ipv4Network).pfx ≤ 32 ∧
     (⟨0x0A0A0A00, 24⟩ : Ipv4Network).addr < 2 ^ 32 ∧
     (⟨0x0A0A0A00, 24⟩ : Ipv4Network).pfx ≤ 32 ∧ (0x0B000000 : Nat) < 2 ^ 32) ∧
    ((∃ k net, ((⟨0x0A000000, 8⟩ : Ipv4Network).sub ⟨0x0A0A0A00, 24⟩).out k =
        some (.ok net) ∧ net.contains 0x0B000000 = true) ↔
      ((⟨0x0A000000, 8⟩ : Ipv4Network).contains 0x0B000000 = true ∧
       (⟨0x0A0A0A00, 24⟩ : Ipv4Network).contains 0x0B000000 = false)) :=
  ⟨⟨by decide, by decide, by decide, by decide, by decide⟩,
   (ipv4_sub_partition_correct ⟨0x0A000000, 8⟩ ⟨0x0A0A0A00, 24⟩
      (by decide) (by decide) (by decide) (by decide)).2.1 0x0B000000 (by decide)⟩

/-- C3: subtracting `10.10.10.0/24` from `10.0.0.0/8` yields exactly the 16
blocks of the worked example, each exactly once (the expected list has no
duplicates), and nothing after them. -/
theorem ipv4_sub_worked_example :
    (∀ k, ((⟨0x0A000000, 8⟩ : Ipv4Network).sub ⟨0x0A0A0A00, 24⟩).out k =
      c3Expected k) ∧
    c3Blocks.Nodup ∧ c3Blocks.length = 16 := by
  refine ⟨?_, by decide, rfl⟩
  intro k
  by_cases hk : k < 16
  · interval_cases k <;> decide
  · have h1 : ((⟨0x0A000000, 8⟩ : Ipv4Network).sub ⟨0x0A0A0A00, 24⟩) =
        .multipleNetworks ⟨0x0A0A0A00, 8, 24⟩ := by decide
    rw [h1, multiple4_out (by norm_num) k 8, if_neg (by omega), c3Expected,
      dif_neg (by rw [show c3Blocks.length = 16 from rfl]; omega)]
